import Mathlib

/-!
Verification of the query deduplication and subscription-lifecycle registry
of the `convex-helpers` repository, together with its UI-binding hooks
(`src/hooks/cache/hooks.tsx`) and the CLI manifest-retrieval glue
(`cli/utils.ts`).

The repository snapshot contains the hook layer and the CLI utility; the
Key Deriver (`createQueryKey` in `core.ts`) and the Subscription Registry
(`provider.tsx`) are consumed by the hooks but their source is not part of
the snapshot, so those two components are modelled from the specification
(every such definition is marked `Modelled from the spec:` in its doc
comment).  Everything else is a direct shallow embedding of the TypeScript
source.
-/

set_option maxHeartbeats 1000000
set_option linter.unusedSectionVars false

namespace ConvexHelpers

/-- Association-list lookup keyed by decidable equality (models JS `Map.get`
/ object-key lookup used throughout the embedding). -/
def lookupA {α β : Type} [DecidableEq α] : List (α × β) → α → Option β
  | [], _ => none
  | (a, b) :: t, x => if a = x then some b else lookupA t x

/-- Replace the value stored at key `x` (first occurrence), leaving other
entries unchanged (models `Map.set` on an existing key). -/
def updateA {α β : Type} [DecidableEq α] : List (α × β) → α → β → List (α × β)
  | [], _, _ => []
  | (a, b) :: t, x, y => if a = x then (a, y) :: t else (a, b) :: updateA t x y

/-- Remove the entry at key `x` (first occurrence; models `Map.delete`). -/
def removeA {α β : Type} [DecidableEq α] : List (α × β) → α → List (α × β)
  | [], _ => []
  | (a, b) :: t, x => if a = x then t else (a, b) :: removeA t x

/-! ## CLI manifest retrieval (`cli/utils.ts`, `getFunctionSpec`)

The function interacts with the file system, a child process and
`process.exit`.  We embed it as a pure function over an explicit file-system
state and an explicit result for the single `spawnSync` invocation.  A call
to `process.exit(code)` terminates the Node.js process immediately: no
further synchronous JavaScript runs, in particular a pending `finally`
block is *not* executed.  The embedding therefore returns from the whole
function the moment `process.exit` is reached. -/

/-- File-system state: a mapping from paths to file contents. -/
structure FileSys where
  files : List (String × String)
deriving DecidableEq, Repr

/-- `fs.existsSync`. -/
def FileSys.existsF (fs : FileSys) (p : String) : Bool :=
  (lookupA fs.files p).isSome

/-- `fs.readFileSync` (returns `none` when the file is absent, which in the
source would throw). -/
def FileSys.read (fs : FileSys) (p : String) : Option String :=
  lookupA fs.files p

/-- Creating/overwriting a file (`fs.openSync(tempFile, "w")` plus the child
process writing its stdout into the descriptor). -/
def FileSys.write (fs : FileSys) (p : String) (c : String) : FileSys :=
  ⟨(p, c) :: removeA fs.files p⟩

/-- `fs.unlinkSync`. -/
def FileSys.remove (fs : FileSys) (p : String) : FileSys :=
  ⟨removeA fs.files p⟩

/-- Outcome of one `spawnSync("npx", ["convex", "function-spec", ...])`
invocation: the exit status and what the child wrote to stdout. -/
structure SpawnResult where
  status : Int
  out : String
deriving DecidableEq, Repr

/-- Result of running `getFunctionSpec`: either the process terminated via
`process.exit code`, or the function returned the manifest contents. -/
inductive CliOutcome where
  | exited (code : Nat)
  | returned (content : String)
deriving DecidableEq, Repr

/-- JavaScript truthiness of the optional `filePath` argument: `undefined`
and the empty string are falsy. -/
def jsTruthyPath : Option String → Bool
  | none => false
  | some s => s ≠ ""

/-- Shallow embedding of `getFunctionSpec(prod?, filePath?)` from
`cli/utils.ts`.  Besides the outcome it returns the final file-system state
and whether the external introspection command (`spawnSync`) was invoked.

The no-file-path branch mirrors the source's `try/catch/finally`: the
`catch` block calls `process.exit(1)`, which terminates the process at
once, so the `finally` block (which unlinks the temporary file) runs only
when the `try` block completes without throwing. -/
def getFunctionSpec (prod : Bool) (filePath : Option String) (fs : FileSys)
    (spawn : SpawnResult) (tempFile : String) : CliOutcome × FileSys × Bool :=
  if jsTruthyPath filePath ∧ prod then
    -- `console.error(...); process.exit(1)`
    (.exited 1, fs, false)
  else if jsTruthyPath filePath ∧ ¬ fs.existsF (filePath.getD "") then
    -- `console.error(chalk.red(...)); process.exit(1)`
    (.exited 1, fs, false)
  else if jsTruthyPath filePath then
    -- `content = fs.readFileSync(filePath, "utf-8")`
    (.returned ((fs.read (filePath.getD "")).getD ""), fs, false)
  else
    -- temp-file branch: open the temp file, run `spawnSync` with stdout
    -- redirected into it
    let fs₁ := fs.write tempFile spawn.out
    if spawn.status ≠ 0 then
      -- `throw new Error(...)` → `catch`: `console.error(...); process.exit(1)`.
      -- `process.exit` terminates the process; the `finally` block never
      -- runs, so the temporary file is left in place.
      (.exited 1, fs₁, true)
    else
      -- `content = fs.readFileSync(tempFile)`, then `finally` unlinks it.
      (.returned ((fs₁.read tempFile).getD ""), fs₁.remove tempFile, true)

/-! ## Subscription Registry

Modelled from the spec: the Subscription Registry (`provider.tsx`) is not
part of the repository snapshot (only its caller `hooks.tsx` is), so the
state table and its three operations `probe` / `start` / `end`, plus the
transport push fan-out, are embedded from §3–§4.2 of the specification.

The registry is generic in the key type `κ` and the result type `ρ`
(a result is a successful value or an error value; the registry treats the
two uniformly, per §7).  Listener handles are modelled as naturals.
Transport interactions (`open` / `close`) and notify-callback invocations
are recorded in explicit logs so that "exactly once" claims are statements
about the model, not meta-observations. -/

/-- A transport-level event: opening or closing the one subscription for a
key. -/
inductive TEvent (κ : Type) where
  | openSub (k : κ)
  | closeSub (k : κ)
deriving DecidableEq, Repr

/-- Modelled from the spec: a `CacheEntry` (§3) — the set of attached
listener handles (in attachment order) and the latest observed result
(`none` = "no value yet").  The transport subscription handle is owned by
the entry; its lifetime coincides with the entry's, so it needs no separate
field (the open/close log tracks transport calls). -/
structure Entry (ρ : Type) where
  listeners : List Nat
  value : Option ρ
deriving DecidableEq, Repr

/-- Modelled from the spec: the Subscription Registry state (§4.2) — the
key → CacheEntry table, the reverse handle → key map used by `end`, the
log of transport `open`/`close` calls, and the log of notify invocations
(handle, delivered result). -/
structure Reg (κ ρ : Type) where
  entries : List (κ × Entry ρ)
  handleKey : List (Nat × κ)
  log : List (TEvent κ)
  delivered : List (Nat × ρ)
deriving DecidableEq, Repr

/-- The freshly constructed registry: no entries, no listeners, no
transport activity. -/
def Reg.init (κ ρ : Type) : Reg κ ρ := ⟨[], [], [], []⟩

variable {κ ρ : Type} [DecidableEq κ]

/-- Modelled from the spec: `probe(key)` (§4.2) — synchronous best-effort
read; returns the entry's cached result if an entry exists and has one,
and "absent" (`none`) otherwise.  No side effect. -/
def Reg.probe (r : Reg κ ρ) (k : κ) : Option ρ :=
  (lookupA r.entries k).bind (·.value)

/-- Modelled from the spec: `start(listenerHandle, key, fn, args, notify)`
(§4.2).  If no entry exists for the key, create one and open the transport
subscription (logged).  Attach the handle.  If the entry already holds a
cached result, the newly attached listener is synchronously notified of it
(the spec leaves sync-vs-deferred open; the model takes the synchronous
choice, which satisfies the required convergence contract). -/
def Reg.start (r : Reg κ ρ) (h : Nat) (k : κ) : Reg κ ρ :=
  match lookupA r.entries k with
  | none =>
      { entries := r.entries ++ [(k, ⟨[h], none⟩)]
        handleKey := r.handleKey ++ [(h, k)]
        log := r.log ++ [.openSub k]
        delivered := r.delivered }
  | some e =>
      { entries := updateA r.entries k ⟨e.listeners ++ [h], e.value⟩
        handleKey := r.handleKey ++ [(h, k)]
        log := r.log
        delivered :=
          match e.value with
          | some v => r.delivered ++ [(h, v)]
          | none => r.delivered }

/-- Modelled from the spec: the transport's asynchronous push callback
(§4.2 `start`, §6): update the entry's cached result, then notify every
currently attached listener in attachment order. -/
def Reg.push (r : Reg κ ρ) (k : κ) (v : ρ) : Reg κ ρ :=
  match lookupA r.entries k with
  | none => r
  | some e =>
      { entries := updateA r.entries k ⟨e.listeners, some v⟩
        handleKey := r.handleKey
        log := r.log
        delivered := r.delivered ++ e.listeners.map (fun h => (h, v)) }

/-- Modelled from the spec: `end(listenerHandle)` (§4.2) — detach the
handle from whichever key it is attached to; a handle that is not attached
is a safe no-op.  If the last listener was removed, synchronously close the
transport subscription (logged) and discard the entry. -/
def Reg.endL (r : Reg κ ρ) (h : Nat) : Reg κ ρ :=
  match lookupA r.handleKey h with
  | none => r
  | some k =>
      match lookupA r.entries k with
      | none => { r with handleKey := removeA r.handleKey h }
      | some e =>
          let ls := e.listeners.erase h
          if ls.isEmpty then
            { entries := removeA r.entries k
              handleKey := removeA r.handleKey h
              log := r.log ++ [.closeSub k]
              delivered := r.delivered }
          else
            { entries := updateA r.entries k ⟨ls, e.value⟩
              handleKey := removeA r.handleKey h
              log := r.log
              delivered := r.delivered }

/-- Number of transport `open` calls for key `k` in a log. -/
def countOpen [DecidableEq κ] (log : List (TEvent κ)) (k : κ) : Nat :=
  log.countP (fun e => e = .openSub k)

/-- Number of transport `close` calls for key `k` in a log. -/
def countClose [DecidableEq κ] (log : List (TEvent κ)) (k : κ) : Nat :=
  log.countP (fun e => e = .closeSub k)

/-- The canonical registry state reached by starting the listeners `L`
(in order) on a single key `k` from the initial registry. -/
def singleKeyState (k : κ) (L : List Nat) : Reg κ ρ :=
  ⟨[(k, ⟨L, none⟩)], L.map (fun h => (h, k)), [.openSub k], []⟩

/-! ## Key Deriver

Modelled from the spec: `createQueryKey` (`core.ts`) is not part of the
repository snapshot, so the Key Deriver is embedded from §4.1 of the
specification: the supported value domain (primitives, sequences, nested
mappings), recursive canonicalization by sorting mapping keys, and a
deterministic, injective serialization of function reference +
canonicalized arguments.  A serialized key is modelled as a string over an
explicit token alphabet, which keeps the encoding deterministic and
type-distinguishing (the number `1` and the string `"1"` serialize to
different tokens). -/

/-- Token alphabet of the serialized query key. -/
inductive Tok where
  | tnull
  | tbool (b : Bool)
  | tnum (n : Int)
  | tstr (s : String)
  | arrO
  | arrC
  | objO
  | objC
  | keyT (k : String)
deriving DecidableEq, Repr

/-! Modelled from the spec: the supported argument value domain (§3, §4.1)
— primitives, sequences and nested string-keyed mappings, no cycles.
`ValueList` and `PairList` are the spine types of sequences and mappings.  -/
mutual

inductive Value where
  | vnull
  | vbool (b : Bool)
  | vnum (n : Int)
  | vstr (s : String)
  | varr (items : ValueList)
  | vobj (fields : PairList)

inductive ValueList where
  | nil
  | cons (v : Value) (tail : ValueList)

inductive PairList where
  | nil
  | cons (key : String) (v : Value) (tail : PairList)

end

/-- The underlying `List` of a `PairList`. -/
def PairList.toList : PairList → List (String × Value)
  | .nil => []
  | .cons k v t => (k, v) :: t.toList

/-- Rebuild a `PairList` from a `List` of pairs. -/
def PairList.ofList : List (String × Value) → PairList
  | [] => .nil
  | (k, v) :: t => .cons k v (PairList.ofList t)

/-- The keys of a mapping, in insertion order. -/
def keysP : PairList → List String
  | .nil => []
  | .cons k _ t => k :: keysP t

/-- Key order used to canonicalize mappings: compare field names. -/
def pairLE (p q : String × Value) : Prop := p.1 ≤ q.1

instance : DecidableRel pairLE := fun p q =>
  inferInstanceAs (Decidable (p.1 ≤ q.1))

/-- Strict version of `pairLE`, used to show sorted mappings with distinct
keys are uniquely determined. -/
def pairLT (p q : String × Value) : Prop := p.1 < q.1

/-- Sort the fields of a mapping by key (the spec's "recursively sorting
mapping keys"; one level — recursion happens in `canonV`). -/
def sortP (l : PairList) : PairList :=
  PairList.ofList (List.insertionSort pairLE l.toList)

/-! Modelled from the spec: recursive canonicalization (§4.1) — sort the
keys of every mapping, at every nesting depth. -/
mutual

def canonV : Value → Value
  | .vnull => .vnull
  | .vbool b => .vbool b
  | .vnum n => .vnum n
  | .vstr s => .vstr s
  | .varr l => .varr (canonL l)
  | .vobj l => .vobj (sortP (canonP l))

def canonL : ValueList → ValueList
  | .nil => .nil
  | .cons v t => .cons (canonV v) (canonL t)

def canonP : PairList → PairList
  | .nil => .nil
  | .cons k v t => .cons k (canonV v) (canonP t)

end

/-! Modelled from the spec: the deterministic serialization of a value
(§4.1), written as a token string.  Sequences and mappings are delimited by
matching brackets and mapping fields are prefixed by a key token, which
makes the encoding prefix-unambiguous and hence injective. -/
mutual

def encV : Value → List Tok
  | .vnull => [.tnull]
  | .vbool b => [.tbool b]
  | .vnum n => [.tnum n]
  | .vstr s => [.tstr s]
  | .varr l => .arrO :: (encL l ++ [.arrC])
  | .vobj l => .objO :: (encP l ++ [.objC])

def encL : ValueList → List Tok
  | .nil => []
  | .cons v t => encV v ++ encL t

def encP : PairList → List Tok
  | .nil => []
  | .cons k v t => .keyT k :: (encV v ++ encP t)

end

/-- `true` iff a list of keys has no duplicates (a `PairList` with such
keys represents a genuine mapping, i.e. a set of named values). -/
def nodupKeys : List String → Bool
  | [] => true
  | k :: t => (!(t.contains k)) && nodupKeys t

/-! Well-formedness of a value: every mapping in it, at every depth, has
pairwise-distinct keys (the spec's "argument mapping is a set of named
values"). -/
mutual

def wfV : Value → Bool
  | .vnull => true
  | .vbool _ => true
  | .vnum _ => true
  | .vstr _ => true
  | .varr l => wfL l
  | .vobj l => wfP l && nodupKeys (keysP l)

def wfL : ValueList → Bool
  | .nil => true
  | .cons v t => wfV v && wfL t

def wfP : PairList → Bool
  | .nil => true
  | .cons _ v t => wfV v && wfP t

end

/-! Modelled from the spec: deep equality of values irrespective of key
insertion order (§3's equivalence of QueryIdentities).  A mapping is
related to another iff its fields match pointwise (same key, equivalent
value) up to a permutation; sequences match pointwise in order. -/
mutual

inductive VEquiv : Value → Value → Prop where
  | vnull : VEquiv .vnull .vnull
  | vbool (b : Bool) : VEquiv (.vbool b) (.vbool b)
  | vnum (n : Int) : VEquiv (.vnum n) (.vnum n)
  | vstr (s : String) : VEquiv (.vstr s) (.vstr s)
  | varr {l₁ l₂ : ValueList} : LEquiv l₁ l₂ → VEquiv (.varr l₁) (.varr l₂)
  | vobj {l₁ l' l₂ : PairList} : PEquiv l₁ l' →
      List.Perm l'.toList l₂.toList → VEquiv (.vobj l₁) (.vobj l₂)

inductive LEquiv : ValueList → ValueList → Prop where
  | nil : LEquiv .nil .nil
  | cons {v w : Value} {t₁ t₂ : ValueList} : VEquiv v w → LEquiv t₁ t₂ →
      LEquiv (.cons v t₁) (.cons w t₂)

inductive PEquiv : PairList → PairList → Prop where
  | nil : PEquiv .nil .nil
  | cons (k : String) {v w : Value} {t₁ t₂ : PairList} : VEquiv v w →
      PEquiv t₁ t₂ → PEquiv (.cons k v t₁) (.cons k w t₂)

end

/-- Pointwise relation between mapping fields: equal key, equivalent
value. -/
def pairRel (p q : String × Value) : Prop := p.1 = q.1 ∧ VEquiv p.2 q.2

/-- The hook-level query arguments: either a concrete argument mapping or
the "skip" sentinel ("do not load this query"). -/
inductive ArgsOrSkip where
  | skip
  | args (fields : PairList)

/-- Modelled from the spec: `createQueryKey(query, args)` / `derive`
(§4.1) — returns `none` for a skip request, and otherwise serializes the
function reference followed by the canonicalized argument mapping. -/
def createQueryKey (fn : String) : ArgsOrSkip → Option (List Tok)
  | .skip => none
  | .args l => some (.tstr fn :: encV (canonV (.vobj l)))

/-- Run a sequence of `start` calls for the handles `hs`, all on key `k`. -/
def startAll (k : κ) (hs : List Nat) (r : Reg κ ρ) : Reg κ ρ :=
  hs.foldl (fun r h => r.start h k) r

/-- Run a sequence of `end` calls for the handles `es`. -/
def endAll (es : List Nat) (r : Reg κ ρ) : Reg κ ρ :=
  es.foldl Reg.endL r

/-! ## UI-binding hooks (`src/hooks/cache/hooks.tsx`)

Direct shallow embedding of `useQueries` and `useQuery`.  A hook
invocation is split into its render phase (the loop computing query keys,
initial `useState` values via `probe`, and the `listens` array, then the
null-registry check) and its mount effect (the loop generating a fresh
handle per query and calling `start`, whose cleanup calls `end` for each
collected handle).  Fresh `crypto.randomUUID()` handles are modelled by a
counter `n₀, n₀+1, …` of distinct naturals. -/

/-- A serialized query key. -/
abbrev QKey := List Tok

/-- A query result as delivered to the hook layer: a successful `Value` or
an `Error` (carried as its message). -/
abbrev RVal := Sum Value String

/-- The registry instance used by the hooks. -/
abbrev HReg := Reg QKey RVal

/-- One entry of the `queries` record passed to `useQueries`: the
identifier, the query function reference and its arguments. -/
structure QueryRequest where
  name : String
  fn : String
  args : ArgsOrSkip

/-- Everything the render phase of `useQueries` computes: each
`createQueryKey` result in order, the `probe` calls made, the per-identifier
initial state (`useState(initialValue)`), and the `listens` array (its
query-key component, which is what the effect consumes). -/
structure RenderOut where
  derives : List (Option QKey)
  probes : List QKey
  results : List (String × Option RVal)
  listens : List (Option QKey)

/-- The render-phase loop of `useQueries` (hooks.tsx lines 77–89):
`createQueryKey`, then `initialValue = registry === null || queryKey ===
undefined ? undefined : registry.probe(queryKey)`, collecting `results`,
`listens` and `qkeys`. -/
def renderQueries : List QueryRequest → Option HReg → RenderOut
  | [], _ => ⟨[], [], [], []⟩
  | q :: rest, reg? =>
      let k := createQueryKey q.fn q.args
      let initial : Option RVal :=
        match reg?, k with
        | some r, some kk => r.probe kk
        | _, _ => none
      let probesHere : List QKey :=
        match reg?, k with
        | some _, some kk => [kk]
        | _, _ => []
      let tail := renderQueries rest reg?
      ⟨k :: tail.derives, probesHere ++ tail.probes,
        (q.name, initial) :: tail.results, k :: tail.listens⟩

/-- The mount effect of `useQueries` (hooks.tsx lines 98–119): walk the
`listens` array; on an undefined query key, `return` from the effect
immediately (no cleanup is registered); otherwise generate a fresh handle,
call `start` and collect the handle.  When the loop completes, the
returned cleanup ends every collected handle.  The result is the registry
after the `start` calls, the `start` invocations (handle, key) in order,
and the cleanup (`none` when no cleanup function was registered). -/
def runQueriesEffect (reg : HReg) :
    List (Option QKey) → Nat → HReg × List (Nat × QKey) × Option (List Nat)
  | [], _ => (reg, [], some [])
  | none :: _, _ => (reg, [], none)
  | some k :: rest, n =>
      let out := runQueriesEffect (reg.start n k) rest (n + 1)
      (out.1, (n, k) :: out.2.1, out.2.2.map (fun ids => n :: ids))

/-- `useQueries` (hooks.tsx lines 65–121): render phase, then the
null-registry check (`throw new Error(...)`), then the mount effect. -/
def useQueriesModel (queries : List QueryRequest) (reg? : Option HReg)
    (n₀ : Nat) :
    RenderOut × Except String (HReg × List (Nat × QKey) × Option (List Nat)) :=
  let out := renderQueries queries reg?
  match reg? with
  | none =>
      (out, .error "Could not find ConvexQueryCacheContext")
  | some reg => (out, .ok (runQueriesEffect reg out.listens n₀))

/-- The `params` record built by `useQuery` (hooks.tsx lines 143–152): the
skip sentinel produces an empty record, anything else a single `_default`
request. -/
def useQueryParams (fn : String) : ArgsOrSkip → List QueryRequest
  | .skip => []
  | .args l => [⟨"_default", fn, .args l⟩]

/-- `results._default` of a `useQueries` result (an absent identifier reads
as `undefined`). -/
def defaultResult (results : List (String × Option RVal)) : Option RVal :=
  (lookupA results "_default").getD none

/-- The presentation boundary of `useQuery` (hooks.tsx lines 154–163):
rethrow a result that is an `Error` instance, return anything else
unchanged. -/
def presentResult : Option RVal → Except String (Option Value)
  | some (.inr e) => .error e
  | some (.inl v) => .ok (some v)
  | none => .ok none

/-- `useQuery` (hooks.tsx lines 139–164): build `params`, run
`useQueries`, then present `results._default`, rethrowing errors. -/
def useQueryModel (fn : String) (args : ArgsOrSkip) (reg? : Option HReg)
    (n₀ : Nat) :
    RenderOut ×
      Except String ((HReg × List (Nat × QKey) × Option (List Nat)) × Option Value) :=
  match useQueriesModel (useQueryParams fn args) reg? n₀ with
  | (out, .error e) => (out, .error e)
  | (out, .ok eff) =>
      match presentResult (defaultResult out.results) with
      | .error e => (out, .error e)
      | .ok v => (out, .ok (eff, v))

/-! ## Theorems -/

section RegistryLemmas

variable {κ ρ : Type} [DecidableEq κ]

/-- Helper: lookup in a handle→key map built from a handle list. -/
theorem lookupA_map_pair (L : List Nat) (k : κ) (x : Nat) :
    lookupA (L.map (fun h => (h, k))) x = if x ∈ L then some k else none := by
  induction L with
  | nil => simp [lookupA]
  | cons a t ih =>
    by_cases hax : a = x
    · subst hax; simp [lookupA]
    · simp [lookupA, hax, ih, Ne.symm hax]

/-- Helper: removing a handle from a handle→key map erases it from the
underlying handle list. -/
theorem removeA_map_pair (L : List Nat) (k : κ) (x : Nat) :
    removeA (L.map (fun h => (h, k))) x = (L.erase x).map (fun h => (h, k)) := by
  induction L with
  | nil => simp [removeA]
  | cons a t ih =>
    by_cases hax : a = x
    · subst hax; simp [removeA, List.erase_cons_head]
    · simp [removeA, hax, ih, List.erase_cons_tail, hax]

/-- Helper: the first `start` call on a fresh registry opens the transport
subscription and creates the entry. -/
theorem start_init (k : κ) (h : Nat) :
    (Reg.init κ ρ).start h k = singleKeyState k [h] := by
  simp [Reg.init, Reg.start, singleKeyState, lookupA]

/-- Helper: a further `start` on a live single-key state attaches the new
handle without touching the transport. -/
theorem start_singleKey (k : κ) (L : List Nat) (h : Nat) :
    (singleKeyState (ρ := ρ) k L).start h k = singleKeyState k (L ++ [h]) := by
  simp [singleKeyState, Reg.start, lookupA, updateA]

/-- Helper: repeated `start` calls accumulate listeners in order. -/
theorem startAll_singleKey (k : κ) (hs L : List Nat) :
    startAll (ρ := ρ) k hs (singleKeyState k L) = singleKeyState k (L ++ hs) := by
  induction hs generalizing L with
  | nil => simp [startAll]
  | cons h t ih =>
    show startAll k t ((singleKeyState k L).start h k) = _
    rw [start_singleKey, ih, List.append_assoc]
    rfl

/-- Helper: `end` for a non-last listener detaches it and leaves the
transport untouched. -/
theorem endL_singleKey_mem (k : κ) (L : List Nat) (h : Nat)
    (hm : h ∈ L) (hne : L.erase h ≠ []) :
    (singleKeyState (ρ := ρ) k L).endL h = singleKeyState k (L.erase h) := by
  simp only [singleKeyState, Reg.endL, lookupA_map_pair, hm, if_pos,
    lookupA, if_pos rfl]
  simp [List.isEmpty_iff, hne, updateA, removeA_map_pair]

/-- Helper: `end` for the last listener closes the subscription and
discards the entry. -/
theorem endL_singleKey_last (k : κ) (h : Nat) :
    (singleKeyState (ρ := ρ) k [h]).endL h =
      ⟨[], [], [.openSub k, .closeSub k], []⟩ := by
  simp [singleKeyState, Reg.endL, lookupA, updateA, removeA]

/-- Helper: ending listeners one at a time, while at least one other
listener remains attached, just erases them from the listener list. -/
theorem endAll_singleKey (k : κ) (es : List Nat) :
    ∀ L : List Nat, es.Nodup → (∀ x ∈ es, x ∈ L) → es.length < L.length →
      endAll (ρ := ρ) es (singleKeyState k L) =
        singleKeyState k (es.foldl List.erase L) := by
  induction es with
  | nil => intro L _ _ _; simp [endAll]
  | cons e t ih =>
    intro L hnd hsub hlen
    have hmem : e ∈ L := hsub e (by simp)
    have herase_len : (L.erase e).length = L.length - 1 :=
      List.length_erase_of_mem hmem
    have hne : L.erase e ≠ [] := by
      intro hcontra
      rw [hcontra] at herase_len
      simp at hlen herase_len
      omega
    show endAll t ((singleKeyState k L).endL e) = _
    rw [endL_singleKey_mem k L e hmem hne]
    obtain ⟨henot, htnd⟩ := List.nodup_cons.mp hnd
    rw [ih (L.erase e) htnd]
    · rfl
    · intro x hx
      have hxe : x ≠ e := fun hcontra => henot (hcontra ▸ hx)
      exact (List.mem_erase_of_ne hxe).mpr (hsub x (List.mem_cons_of_mem e hx))
    · rw [herase_len]
      simp at hlen ⊢
      omega

/-- Helper: erasing a list of elements respects permutation. -/
theorem foldl_erase_perm (es : List Nat) :
    ∀ {l₁ l₂ : List Nat}, List.Perm l₁ l₂ →
      List.Perm (es.foldl List.erase l₁) (es.foldl List.erase l₂) := by
  induction es with
  | nil => intro l₁ l₂ hp; exact hp
  | cons e t ih => intro l₁ l₂ hp; exact ih (hp.erase e)

/-- Helper: erasing, in order, every element of `es` from `es ++ [h]`
leaves exactly `[h]`. -/
theorem foldl_erase_self (h : Nat) :
    ∀ es : List Nat, es.foldl List.erase (es ++ [h]) = [h] := by
  intro es
  induction es with
  | nil => rfl
  | cons e t ih =>
    show t.foldl List.erase ((e :: (t ++ [h])).erase e) = [h]
    rw [List.erase_cons_head]
    exact ih

/-- C1 (reference-count correctness): starting `N` distinct listener
handles on the same key from a fresh registry and then ending all but one
of them leaves the entry live, with the transport opened exactly once and
never closed; ending the final handle removes the entry and closes the
transport subscription exactly once. -/
theorem refcount_correct (k : κ) (hs es : List Nat) (hlast : Nat)
    (hnd : hs.Nodup) (hsplit : List.Perm hs (es ++ [hlast])) :
    (lookupA (endAll (ρ := ρ) es (startAll k hs (Reg.init κ ρ))).entries k).isSome = true
    ∧ countOpen (endAll (ρ := ρ) es (startAll k hs (Reg.init κ ρ))).log k = 1
    ∧ countClose (endAll (ρ := ρ) es (startAll k hs (Reg.init κ ρ))).log k = 0
    ∧ lookupA ((endAll (ρ := ρ) es (startAll k hs (Reg.init κ ρ))).endL hlast).entries k = none
    ∧ countOpen ((endAll (ρ := ρ) es (startAll k hs (Reg.init κ ρ))).endL hlast).log k = 1
    ∧ countClose ((endAll (ρ := ρ) es (startAll k hs (Reg.init κ ρ))).endL hlast).log k = 1 := by
  -- shape of `hs`
  have hlen : hs.length = es.length + 1 := by
    simpa using hsplit.length_eq
  have hsnil : hs ≠ [] := by
    intro hcontra; rw [hcontra] at hlen; simp at hlen
  -- distinctness facts transported along the permutation
  have hnd' : (es ++ [hlast]).Nodup := hsplit.nodup hnd
  have hesnd : es.Nodup := (List.nodup_append.mp hnd').1
  have hesnotlast : hlast ∉ es := by
    have := (List.nodup_append.mp hnd').2.2
    intro hmem
    exact this hmem (by simp)
  have hsub : ∀ x ∈ es, x ∈ hs := fun x hx =>
    hsplit.symm.subset (by simp [hx])
  -- the state after all starts
  have hstart : startAll (ρ := ρ) k hs (Reg.init κ ρ) = singleKeyState k hs := by
    obtain ⟨h₀, t, rfl⟩ := List.exists_cons_of_ne_nil hsnil
    show startAll k t ((Reg.init κ ρ).start h₀ k) = _
    rw [start_init, startAll_singleKey]
    rfl
  -- the state after the first `N - 1` ends
  have hremain : es.foldl List.erase hs = [hlast] :=
    List.perm_singleton.mp
      ((foldl_erase_perm es hsplit).trans (by rw [foldl_erase_self hlast es]))
  have hends : endAll (ρ := ρ) es (startAll k hs (Reg.init κ ρ)) =
      singleKeyState k [hlast] := by
    rw [hstart, endAll_singleKey k es hs hesnd hsub (by omega), hremain]
  rw [hends, endL_singleKey_last]
  refine ⟨?_, ?_, ?_, ?_, ?_, ?_⟩ <;>
    simp [singleKeyState, lookupA, countOpen, countClose]

/-- Witness for `refcount_correct`: three distinct handles started on one
key, two ended, then the third. -/
theorem refcount_correct_witness :
    ([7, 8, 9] : List Nat).Nodup ∧ List.Perm ([7, 8, 9] : List Nat) ([9, 7] ++ [8])
    ∧ ((lookupA (endAll (ρ := Nat) [9, 7]
          (startAll 0 [7, 8, 9] (Reg.init Nat Nat))).entries 0).isSome = true
      ∧ countOpen (endAll (ρ := Nat) [9, 7]
          (startAll 0 [7, 8, 9] (Reg.init Nat Nat))).log 0 = 1
      ∧ countClose (endAll (ρ := Nat) [9, 7]
          (startAll 0 [7, 8, 9] (Reg.init Nat Nat))).log 0 = 0
      ∧ lookupA ((endAll (ρ := Nat) [9, 7]
          (startAll 0 [7, 8, 9] (Reg.init Nat Nat))).endL 8).entries 0 = none
      ∧ countOpen ((endAll (ρ := Nat) [9, 7]
          (startAll 0 [7, 8, 9] (Reg.init Nat Nat))).endL 8).log 0 = 1
      ∧ countClose ((endAll (ρ := Nat) [9, 7]
          (startAll 0 [7, 8, 9] (Reg.init Nat Nat))).endL 8).log 0 = 1) :=
  ⟨by decide, by decide,
   refcount_correct 0 [7, 8, 9] [9, 7] 8 (by decide) (by decide)⟩

/-- Helper: updating an existing key stores the new value. -/
theorem lookupA_updateA_self {α β : Type} [DecidableEq α]
    (l : List (α × β)) (x : α) (y : β) :
    (lookupA l x).isSome = true → lookupA (updateA l x y) x = some y := by
  induction l with
  | nil => simp [lookupA]
  | cons hd t ih =>
    obtain ⟨a, b⟩ := hd
    by_cases hax : a = x
    · subst hax; simp [lookupA, updateA]
    · simp [lookupA, updateA, hax]
      exact ih

/-- C4 (late-attach convergence): once a value has been pushed for a key
with a live entry, `probe` returns that cached value, and a listener
attaching afterwards via `start` is synchronously notified of the cached
value while no second transport `open` occurs for the key. -/
theorem late_attach (r : Reg κ ρ) (k : κ) (e : Entry ρ) (v : ρ) (h : Nat)
    (hentry : lookupA r.entries k = some e) :
    (r.push k v).probe k = some v
    ∧ ((r.push k v).start h k).log = (r.push k v).log
    ∧ ((r.push k v).start h k).delivered = (r.push k v).delivered ++ [(h, v)] := by
  have hupd : lookupA (r.push k v).entries k = some ⟨e.listeners, some v⟩ := by
    simp only [Reg.push, hentry]
    exact lookupA_updateA_self r.entries k _ (by simp [hentry])
  refine ⟨?_, ?_, ?_⟩
  · simp [Reg.probe, hupd]
  · simp [Reg.start, hupd]
  · simp [Reg.start, hupd]

/-- Witness for `late_attach`: a first listener opens the entry, a value
is pushed, then a second listener attaches. -/
theorem late_attach_witness :
    lookupA ((Reg.init Nat Nat).start 1 5).entries 5 = some ⟨[1], none⟩
    ∧ ((((Reg.init Nat Nat).start 1 5).push 5 42).probe 5 = some 42
      ∧ (((((Reg.init Nat Nat).start 1 5).push 5 42).start 2 5).log
          = (((Reg.init Nat Nat).start 1 5).push 5 42).log)
      ∧ (((((Reg.init Nat Nat).start 1 5).push 5 42).start 2 5).delivered
          = (((Reg.init Nat Nat).start 1 5).push 5 42).delivered ++ [(2, 42)])) :=
  ⟨by decide,
   late_attach ((Reg.init Nat Nat).start 1 5) 5 ⟨[1], none⟩ 42 2 (by decide)⟩

end RegistryLemmas

section KeyDeriverTheorems

instance : IsTotal (String × Value) pairLE := ⟨fun a b => le_total a.1 b.1⟩

instance : IsTrans (String × Value) pairLE :=
  ⟨fun _ _ _ hab hbc => le_trans hab hbc⟩

instance : IsAntisymm (String × Value) pairLT :=
  ⟨fun _ _ h₁ h₂ => absurd h₁ (lt_asymm h₂)⟩

/-- Helper: `ofList` inverts `toList`. -/
theorem toList_ofList : ∀ L : List (String × Value),
    (PairList.ofList L).toList = L := by
  intro L
  induction L with
  | nil => rfl
  | cons p t ih =>
    obtain ⟨k, v⟩ := p
    simp [PairList.ofList, PairList.toList, ih]

/-- Helper: the keys of a mapping are the first components of its pairs. -/
theorem keysP_eq_map : ∀ l : PairList, keysP l = l.toList.map Prod.fst
  | .nil => rfl
  | .cons k v t => by simp [keysP, PairList.toList, keysP_eq_map t]

/-- Helper: canonicalization maps over the fields of a mapping. -/
theorem canonP_toList : ∀ l : PairList,
    (canonP l).toList = l.toList.map (fun p => (p.1, canonV p.2))
  | .nil => rfl
  | .cons k v t => by simp [canonP, PairList.toList, canonP_toList t]

/-- Helper: `nodupKeys` decides `List.Nodup`. -/
theorem nodupKeys_iff : ∀ L : List String, nodupKeys L = true ↔ L.Nodup := by
  intro L
  induction L with
  | nil => simp [nodupKeys]
  | cons k t ih =>
    rw [List.nodup_cons, ← ih, nodupKeys]
    simp [List.contains, List.elem_iff]

/-- Helper: a `pairLE`-sorted list with pairwise-distinct keys is strictly
sorted by key. -/
theorem sorted_lt_of_sorted_nodup :
    ∀ L : List (String × Value), List.Sorted pairLE L →
      (L.map Prod.fst).Nodup → List.Sorted pairLT L := by
  intro L
  induction L with
  | nil => intro _ _; exact List.Pairwise.nil
  | cons p t ih =>
    intro hs hnd
    rw [List.sorted_cons] at hs
    simp only [List.map_cons, List.nodup_cons] at hnd
    refine List.Pairwise.cons (fun q hq => ?_) (ih hs.2 hnd.2)
    exact lt_of_le_of_ne (hs.1 q hq)
      (fun heq => hnd.1 (heq ▸ List.mem_map_of_mem Prod.fst hq))

/-- Helper: two sorted permutations of a duplicate-key-free mapping are
equal. -/
theorem sorted_nodup_unique {L₁ L₂ : List (String × Value)}
    (hp : List.Perm L₁ L₂) (h₁ : List.Sorted pairLE L₁)
    (h₂ : List.Sorted pairLE L₂) (hnd : (L₁.map Prod.fst).Nodup) :
    L₁ = L₂ := by
  have hnd₂ : (L₂.map Prod.fst).Nodup := (hp.map Prod.fst).nodup hnd
  exact List.eq_of_perm_of_sorted hp
    (sorted_lt_of_sorted_nodup L₁ h₁ hnd)
    (sorted_lt_of_sorted_nodup L₂ h₂ hnd₂)

/-- Helper: sorting is invariant under permutation of a duplicate-key-free
mapping. -/
theorem sortP_eq_of_perm {X Y : PairList}
    (hperm : List.Perm X.toList Y.toList)
    (hnd : (X.toList.map Prod.fst).Nodup) : sortP X = sortP Y := by
  unfold sortP
  congr 1
  apply sorted_nodup_unique
  · exact (List.perm_insertionSort pairLE X.toList).trans
      (hperm.trans (List.perm_insertionSort pairLE Y.toList).symm)
  · exact List.sorted_insertionSort pairLE X.toList
  · exact List.sorted_insertionSort pairLE Y.toList
  · exact (((List.perm_insertionSort pairLE X.toList).symm).map Prod.fst).nodup hnd

/-- Helper: well-formedness of a mapping is well-formedness of each field
value. -/
theorem wfP_iff : ∀ l : PairList,
    wfP l = true ↔ ∀ p ∈ l.toList, wfV p.2 = true
  | .nil => by simp [wfP, PairList.toList]
  | .cons k v t => by
      simp [wfP, PairList.toList, wfP_iff t]

/-- Helper: well-formedness of a mapping's fields is stable under
permutation. -/
theorem wfP_of_perm {l₁ l₂ : PairList}
    (hperm : List.Perm l₁.toList l₂.toList) (h : wfP l₂ = true) :
    wfP l₁ = true :=
  (wfP_iff l₁).mpr fun p hp => (wfP_iff l₂).mp h p (hperm.subset hp)

/-! Canonicalization sends equivalent well-formed values to the same
canonical form: sorting the fields of two mappings that hold the same
key/value pairs (with pairwise-distinct keys) in different orders yields
the same sorted list, recursively at every depth. -/

mutual

theorem canonV_eq : ∀ {a b : Value}, VEquiv a b → wfV a = true →
    wfV b = true → canonV a = canonV b
  | _, _, .vnull, _, _ => rfl
  | _, _, .vbool _, _, _ => rfl
  | _, _, .vnum _, _, _ => rfl
  | _, _, .vstr _, _, _ => rfl
  | _, _, .varr h, w₁, w₂ => by
      simp only [canonV]
      exact congrArg Value.varr
        (canonL_eq h (by simpa [wfV] using w₁) (by simpa [wfV] using w₂))
  | _, _, .vobj hpe hperm, w₁, w₂ => by
      rename_i l₁ l' l₂
      simp only [wfV, Bool.and_eq_true] at w₁ w₂
      have hw'p : wfP l' = true := wfP_of_perm hperm w₂.1
      have hcanon : canonP l₁ = canonP l' := canonP_eq hpe w₁.1 hw'p
      have hpm : List.Perm (canonP l').toList (canonP l₂).toList := by
        rw [canonP_toList, canonP_toList]
        exact hperm.map _
      have hnd₂ : (l₂.toList.map Prod.fst).Nodup := by
        rw [← keysP_eq_map]
        exact (nodupKeys_iff _).mp w₂.2
      have hnd' : ((canonP l').toList.map Prod.fst).Nodup := by
        rw [canonP_toList]
        have hmapfst :
            (l'.toList.map (fun p => (p.1, canonV p.2))).map Prod.fst
              = l'.toList.map Prod.fst := by
          simp [List.map_map, Function.comp]
        rw [hmapfst]
        exact ((hperm.map Prod.fst).symm).nodup hnd₂
      show Value.vobj (sortP (canonP l₁)) = Value.vobj (sortP (canonP l₂))
      rw [hcanon, sortP_eq_of_perm hpm hnd']

theorem canonL_eq : ∀ {l₁ l₂ : ValueList}, LEquiv l₁ l₂ → wfL l₁ = true →
    wfL l₂ = true → canonL l₁ = canonL l₂
  | _, _, .nil, _, _ => rfl
  | _, _, .cons hv hl, w₁, w₂ => by
      simp only [wfL, Bool.and_eq_true] at w₁ w₂
      simp only [canonL]
      rw [canonV_eq hv w₁.1 w₂.1, canonL_eq hl w₁.2 w₂.2]

theorem canonP_eq : ∀ {l₁ l₂ : PairList}, PEquiv l₁ l₂ → wfP l₁ = true →
    wfP l₂ = true → canonP l₁ = canonP l₂
  | _, _, .nil, _, _ => rfl
  | _, _, .cons k hv hp, w₁, w₂ => by
      simp only [wfP, Bool.and_eq_true] at w₁ w₂
      simp only [canonP]
      rw [canonV_eq hv w₁.1 w₂.1, canonP_eq hp w₁.2 w₂.2]

end

/-- C2 (key stability): two well-formed QueryIdentities with the same
function reference whose argument mappings hold the same key/value pairs
up to insertion order (recursively) derive identical query keys. -/
theorem key_stable (f : String) (l₁ l₂ : PairList)
    (w₁ : wfV (.vobj l₁) = true) (w₂ : wfV (.vobj l₂) = true)
    (h : VEquiv (.vobj l₁) (.vobj l₂)) :
    createQueryKey f (.args l₁) = createQueryKey f (.args l₂) := by
  simp only [createQueryKey]
  rw [canonV_eq h w₁ w₂]

/-- Witness for `key_stable`: `{b: 1, a: 2}` versus `{a: 2, b: 1}`. -/
theorem key_stable_witness :
    wfV (.vobj (.cons "b" (.vnum 1) (.cons "a" (.vnum 2) .nil))) = true
    ∧ wfV (.vobj (.cons "a" (.vnum 2) (.cons "b" (.vnum 1) .nil))) = true
    ∧ VEquiv (.vobj (.cons "b" (.vnum 1) (.cons "a" (.vnum 2) .nil)))
        (.vobj (.cons "a" (.vnum 2) (.cons "b" (.vnum 1) .nil)))
    ∧ createQueryKey "listMessages"
        (.args (.cons "b" (.vnum 1) (.cons "a" (.vnum 2) .nil)))
      = createQueryKey "listMessages"
        (.args (.cons "a" (.vnum 2) (.cons "b" (.vnum 1) .nil))) := by
  have hwf₁ : wfV (.vobj (.cons "b" (.vnum 1) (.cons "a" (.vnum 2) .nil))) = true := by
    rfl
  have hwf₂ : wfV (.vobj (.cons "a" (.vnum 2) (.cons "b" (.vnum 1) .nil))) = true := by
    rfl
  have hperm : List.Perm
      (PairList.cons "b" (.vnum 1) (.cons "a" (.vnum 2) .nil)).toList
      (PairList.cons "a" (.vnum 2) (.cons "b" (.vnum 1) .nil)).toList := by
    show List.Perm [("b", Value.vnum 1), ("a", Value.vnum 2)]
      [("a", Value.vnum 2), ("b", Value.vnum 1)]
    exact List.Perm.swap ("a", Value.vnum 2) ("b", Value.vnum 1) []
  have hequiv : VEquiv (.vobj (.cons "b" (.vnum 1) (.cons "a" (.vnum 2) .nil)))
      (.vobj (.cons "a" (.vnum 2) (.cons "b" (.vnum 1) .nil))) :=
    .vobj (.cons "b" (.vnum 1) (.cons "a" (.vnum 2) .nil)) hperm
  exact ⟨hwf₁, hwf₂, hequiv, key_stable "listMessages" _ _ hwf₁ hwf₂ hequiv⟩

/-- Helper: every serialized value starts with a token that is not a
closing bracket. -/
theorem encV_head : ∀ v : Value,
    ∃ t ts, encV v = t :: ts ∧ t ≠ Tok.arrC ∧ t ≠ Tok.objC
  | .vnull => ⟨.tnull, [], rfl, by simp, by simp⟩
  | .vbool b => ⟨.tbool b, [], rfl, by simp, by simp⟩
  | .vnum n => ⟨.tnum n, [], rfl, by simp, by simp⟩
  | .vstr s => ⟨.tstr s, [], rfl, by simp, by simp⟩
  | .varr l => ⟨.arrO, encL l ++ [.arrC], by simp [encV], by simp, by simp⟩
  | .vobj l => ⟨.objO, encP l ++ [.objC], by simp [encV], by simp, by simp⟩

/-! The serialization is prefix-unambiguous: a serialized value (or a
bracket-terminated serialized field list) determines both the value and
the remainder of the token string. -/

mutual

theorem encV_inj : ∀ (v₁ v₂ : Value) (r₁ r₂ : List Tok),
    encV v₁ ++ r₁ = encV v₂ ++ r₂ → v₁ = v₂ ∧ r₁ = r₂
  | .vnull, .vnull, _, _, h => ⟨rfl, by simpa [encV] using h⟩
  | .vnull, .vbool _, _, _, h => by simp [encV] at h
  | .vnull, .vnum _, _, _, h => by simp [encV] at h
  | .vnull, .vstr _, _, _, h => by simp [encV] at h
  | .vnull, .varr _, _, _, h => by simp [encV] at h
  | .vnull, .vobj _, _, _, h => by simp [encV] at h
  | .vbool _, .vnull, _, _, h => by simp [encV] at h
  | .vbool a, .vbool b, _, _, h => by
      simp only [encV, List.cons_append, List.nil_append, List.cons.injEq,
        Tok.tbool.injEq] at h
      exact ⟨by rw [h.1], h.2⟩
  | .vbool _, .vnum _, _, _, h => by simp [encV] at h
  | .vbool _, .vstr _, _, _, h => by simp [encV] at h
  | .vbool _, .varr _, _, _, h => by simp [encV] at h
  | .vbool _, .vobj _, _, _, h => by simp [encV] at h
  | .vnum _, .vnull, _, _, h => by simp [encV] at h
  | .vnum _, .vbool _, _, _, h => by simp [encV] at h
  | .vnum a, .vnum b, _, _, h => by
      simp only [encV, List.cons_append, List.nil_append, List.cons.injEq,
        Tok.tnum.injEq] at h
      exact ⟨by rw [h.1], h.2⟩
  | .vnum _, .vstr _, _, _, h => by simp [encV] at h
  | .vnum _, .varr _, _, _, h => by simp [encV] at h
  | .vnum _, .vobj _, _, _, h => by simp [encV] at h
  | .vstr _, .vnull, _, _, h => by simp [encV] at h
  | .vstr _, .vbool _, _, _, h => by simp [encV] at h
  | .vstr _, .vnum _, _, _, h => by simp [encV] at h
  | .vstr a, .vstr b, _, _, h => by
      simp only [encV, List.cons_append, List.nil_append, List.cons.injEq,
        Tok.tstr.injEq] at h
      exact ⟨by rw [h.1], h.2⟩
  | .vstr _, .varr _, _, _, h => by simp [encV] at h
  | .vstr _, .vobj _, _, _, h => by simp [encV] at h
  | .varr _, .vnull, _, _, h => by simp [encV] at h
  | .varr _, .vbool _, _, _, h => by simp [encV] at h
  | .varr _, .vnum _, _, _, h => by simp [encV] at h
  | .varr _, .vstr _, _, _, h => by simp [encV] at h
  | .varr a, .varr b, r₁, r₂, h => by
      simp only [encV, List.cons_append, List.cons.injEq, List.append_assoc,
        List.singleton_append, true_and, List.nil_append] at h
      obtain ⟨ha, hr⟩ := encL_inj a b r₁ r₂ h
      exact ⟨by rw [ha], hr⟩
  | .varr _, .vobj _, _, _, h => by simp [encV] at h
  | .vobj _, .vnull, _, _, h => by simp [encV] at h
  | .vobj _, .vbool _, _, _, h => by simp [encV] at h
  | .vobj _, .vnum _, _, _, h => by simp [encV] at h
  | .vobj _, .vstr _, _, _, h => by simp [encV] at h
  | .vobj _, .varr _, _, _, h => by simp [encV] at h
  | .vobj a, .vobj b, r₁, r₂, h => by
      simp only [encV, List.cons_append, List.cons.injEq, List.append_assoc,
        List.singleton_append, true_and, List.nil_append] at h
      obtain ⟨ha, hr⟩ := encP_inj a b r₁ r₂ h
      exact ⟨by rw [ha], hr⟩

theorem encL_inj : ∀ (l₁ l₂ : ValueList) (r₁ r₂ : List Tok),
    encL l₁ ++ .arrC :: r₁ = encL l₂ ++ .arrC :: r₂ → l₁ = l₂ ∧ r₁ = r₂
  | .nil, .nil, _, _, h => ⟨rfl, by simpa [encL] using h⟩
  | .nil, .cons v t, _, _, h => by
      obtain ⟨tok, ts, hv, hna, _⟩ := encV_head v
      rw [encL, encL, hv] at h
      simp only [List.nil_append, List.cons_append, List.append_assoc,
        List.cons.injEq] at h
      exact absurd h.1.symm hna
  | .cons v t, .nil, _, _, h => by
      obtain ⟨tok, ts, hv, hna, _⟩ := encV_head v
      rw [encL, encL, hv] at h
      simp only [List.nil_append, List.cons_append, List.append_assoc,
        List.cons.injEq] at h
      exact absurd h.1 hna
  | .cons v₁ t₁, .cons v₂ t₂, r₁, r₂, h => by
      rw [encL, encL, List.append_assoc, List.append_assoc] at h
      obtain ⟨hv, hrest⟩ := encV_inj v₁ v₂ _ _ h
      obtain ⟨ht, hr⟩ := encL_inj t₁ t₂ r₁ r₂ hrest
      exact ⟨by rw [hv, ht], hr⟩

theorem encP_inj : ∀ (l₁ l₂ : PairList) (r₁ r₂ : List Tok),
    encP l₁ ++ .objC :: r₁ = encP l₂ ++ .objC :: r₂ → l₁ = l₂ ∧ r₁ = r₂
  | .nil, .nil, _, _, h => ⟨rfl, by simpa [encP] using h⟩
  | .nil, .cons k v t, _, _, h => by simp [encP] at h
  | .cons k v t, .nil, _, _, h => by simp [encP] at h
  | .cons k₁ v₁ t₁, .cons k₂ v₂ t₂, r₁, r₂, h => by
      simp only [encP, List.cons_append, List.cons.injEq, Tok.keyT.injEq,
        List.append_assoc] at h
      obtain ⟨hk, hrest⟩ := h
      obtain ⟨hv, hrest'⟩ := encV_inj v₁ v₂ _ _ hrest
      obtain ⟨ht, hr⟩ := encP_inj t₁ t₂ r₁ r₂ hrest'
      exact ⟨by rw [hk, hv, ht], hr⟩

end

/-- Helper: pointwise mapping equivalence, viewed as `Forall₂` on the
underlying lists. -/
theorem pequiv_to_forall₂ : ∀ {p q : PairList}, PEquiv p q →
    List.Forall₂ pairRel p.toList q.toList
  | _, _, .nil => .nil
  | _, _, .cons _ hv hp => .cons ⟨rfl, hv⟩ (pequiv_to_forall₂ hp)

/-- Helper: `Forall₂` on the underlying lists gives pointwise mapping
equivalence. -/
theorem pequiv_of_forall₂ : ∀ (p q : PairList),
    List.Forall₂ pairRel p.toList q.toList → PEquiv p q
  | .nil, .nil, _ => .nil
  | .nil, .cons _ _ _, h => by simp [PairList.toList] at h
  | .cons _ _ _, .nil, h => by simp [PairList.toList] at h
  | .cons k₁ v₁ t₁, .cons k₂ v₂ t₂, h => by
      rw [PairList.toList, PairList.toList, List.forall₂_cons] at h
      obtain ⟨⟨hk, hv⟩, ht⟩ := h
      cases hk
      exact .cons k₁ hv (pequiv_of_forall₂ t₁ t₂ ht)

/-- Helper: `Forall₂` against a plain list gives pointwise equivalence
with its rebuilt `PairList`. -/
theorem pequiv_ofList (p : PairList) (M : List (String × Value))
    (h : List.Forall₂ pairRel p.toList M) : PEquiv p (PairList.ofList M) :=
  pequiv_of_forall₂ p (PairList.ofList M) (by rw [toList_ofList]; exact h)

/-! Every value is equivalent to its canonical form, and equivalence is
symmetric and transitive; hence values with equal canonical forms are
equivalent. -/

mutual

theorem vequiv_canon : ∀ v : Value, VEquiv v (canonV v)
  | .vnull => .vnull
  | .vbool b => .vbool b
  | .vnum n => .vnum n
  | .vstr s => .vstr s
  | .varr l => .varr (lequiv_canon l)
  | .vobj l => .vobj (pequiv_canon l) (by
      show List.Perm (canonP l).toList (sortP (canonP l)).toList
      unfold sortP
      rw [toList_ofList]
      exact (List.perm_insertionSort pairLE (canonP l).toList).symm)

theorem lequiv_canon : ∀ l : ValueList, LEquiv l (canonL l)
  | .nil => .nil
  | .cons v t => .cons (vequiv_canon v) (lequiv_canon t)

theorem pequiv_canon : ∀ l : PairList, PEquiv l (canonP l)
  | .nil => .nil
  | .cons k v t => .cons k (vequiv_canon v) (pequiv_canon t)

end

mutual

theorem vequiv_symm : ∀ {a b : Value}, VEquiv a b → VEquiv b a
  | _, _, .vnull => .vnull
  | _, _, .vbool b => .vbool b
  | _, _, .vnum n => .vnum n
  | _, _, .vstr s => .vstr s
  | _, _, .varr h => .varr (lequiv_symm h)
  | _, _, .vobj hpe hperm => by
      have hf := pequiv_to_forall₂ (pequiv_symm hpe)
      obtain ⟨M, hM₁, hM₂⟩ := List.perm_comp_forall₂ hperm.symm hf
      refine .vobj (pequiv_of_forall₂ _ (PairList.ofList M) ?_) ?_
      · rw [toList_ofList]
        exact hM₁
      · rw [toList_ofList]
        exact hM₂

theorem lequiv_symm : ∀ {l₁ l₂ : ValueList}, LEquiv l₁ l₂ → LEquiv l₂ l₁
  | _, _, .nil => .nil
  | _, _, .cons hv hl => .cons (vequiv_symm hv) (lequiv_symm hl)

theorem pequiv_symm : ∀ {p q : PairList}, PEquiv p q → PEquiv q p
  | _, _, .nil => .nil
  | _, _, .cons k hv hp => .cons k (vequiv_symm hv) (pequiv_symm hp)

end

mutual

theorem vequiv_trans : ∀ {a b c : Value}, VEquiv a b → VEquiv b c → VEquiv a c
  | _, _, _, .vnull, h₂ => h₂
  | _, _, _, .vbool _, h₂ => h₂
  | _, _, _, .vnum _, h₂ => h₂
  | _, _, _, .vstr _, h₂ => h₂
  | _, _, _, .varr h₁, .varr h₂ => .varr (lequiv_trans h₁ h₂)
  | _, _, _, .vobj hpe₁ hperm₁, .vobj hpe₂ hperm₂ => by
      have hf₂ := pequiv_to_forall₂ hpe₂
      obtain ⟨M, hM₁, hM₂⟩ := List.perm_comp_forall₂ hperm₁ hf₂
      have hpeM := pequiv_ofList _ M hM₁
      refine .vobj (pequiv_trans hpe₁ hpeM) ?_
      rw [toList_ofList]
      exact hM₂.trans hperm₂

theorem lequiv_trans : ∀ {a b c : ValueList}, LEquiv a b → LEquiv b c → LEquiv a c
  | _, _, _, .nil, h₂ => h₂
  | _, _, _, .cons hv hl, .cons hv' hl' =>
      .cons (vequiv_trans hv hv') (lequiv_trans hl hl')

theorem pequiv_trans : ∀ {a b c : PairList}, PEquiv a b → PEquiv b c → PEquiv a c
  | _, _, _, .nil, h₂ => h₂
  | _, _, _, .cons k hv hp, .cons _ hv' hp' =>
      .cons k (vequiv_trans hv hv') (pequiv_trans hp hp')

end

/-- Helper: values with equal canonical forms are equivalent. -/
theorem vequiv_of_canon_eq {a b : Value} (h : canonV a = canonV b) :
    VEquiv a b :=
  vequiv_trans (vequiv_canon a) (by rw [h]; exact vequiv_symm (vequiv_canon b))

/-- C3 (key injectivity): two QueryIdentities whose (function reference,
argument mapping) pairs are not equivalent — including mappings whose
values differ only in type, such as the number 1 versus the string "1" —
derive distinct query keys. -/
theorem key_injective (f₁ f₂ : String) (l₁ l₂ : PairList)
    (hne : ¬ (f₁ = f₂ ∧ VEquiv (.vobj l₁) (.vobj l₂))) :
    createQueryKey f₁ (.args l₁) ≠ createQueryKey f₂ (.args l₂) := by
  intro h
  simp only [createQueryKey, Option.some.injEq, List.cons.injEq,
    Tok.tstr.injEq] at h
  obtain ⟨hf, henc⟩ := h
  have hcanon : canonV (.vobj l₁) = canonV (.vobj l₂) :=
    (encV_inj _ _ [] [] (by simpa using henc)).1
  exact hne ⟨hf, vequiv_of_canon_eq hcanon⟩

/-- Witness for `key_injective`: `{n: 1}` versus `{n: "1"}` (same function
reference; values differ only in type). -/
theorem key_injective_witness :
    ¬ (("q" : String) = "q"
        ∧ VEquiv (.vobj (.cons "n" (.vnum 1) .nil))
            (.vobj (.cons "n" (.vstr "1") .nil)))
    ∧ createQueryKey "q" (.args (.cons "n" (.vnum 1) .nil))
        ≠ createQueryKey "q" (.args (.cons "n" (.vstr "1") .nil)) := by
  have hne : ¬ (("q" : String) = "q"
      ∧ VEquiv (.vobj (.cons "n" (.vnum 1) .nil))
          (.vobj (.cons "n" (.vstr "1") .nil))) := by
    rintro ⟨-, h⟩
    cases h with
    | vobj hpe hperm =>
      cases hpe with
      | cons _ hv hp =>
        cases hp
        rw [PairList.toList, PairList.toList] at hperm
        have := List.perm_singleton.mp hperm
        rw [List.cons.injEq, Prod.mk.injEq] at this
        obtain ⟨⟨-, hw⟩, -⟩ := this
        rw [hw] at hv
        cases hv
  exact ⟨hne, key_injective "q" "q" _ _ hne⟩

end KeyDeriverTheorems

section HooksTheorems

/-- C5: a `useQuery` call with the "skip" sentinel builds an empty
`params` record, so no query key is derived, `probe` and `start` are never
invoked, no listener is registered, and the hook returns `undefined`. -/
theorem useQuery_skip (fn : String) (r : HReg) (n₀ : Nat) :
    useQueryModel fn .skip (some r) n₀
      = (⟨[], [], [], []⟩, .ok ((r, [], some []), none)) := rfl

/-- C9: `useQueries` outside a `ConvexQueryCacheProvider` (null registry)
computes an `undefined` initial state for every requested query, performs
no `probe`, and then throws synchronously, so the effect (and hence any
`start`) never runs. -/
theorem useQueries_no_provider (queries : List QueryRequest) (n₀ : Nat) :
    (useQueriesModel queries none n₀).2
        = .error "Could not find ConvexQueryCacheContext"
    ∧ (renderQueries queries none).probes = []
    ∧ (renderQueries queries none).results
        = queries.map (fun q => (q.name, none)) := by
  refine ⟨rfl, ?_, ?_⟩
  · induction queries with
    | nil => rfl
    | cons q rest ih => simpa [renderQueries] using ih
  · induction queries with
    | nil => rfl
    | cons q rest ih => simpa [renderQueries] using ih

/-- Helper: the effect loop when every query key is defined — one `start`
per query with consecutive fresh handles, and a cleanup ending exactly
those handles. -/
theorem runQueriesEffect_all_defined :
    ∀ (listens : List (Option QKey)) (reg : HReg) (n₀ : Nat),
      (∀ x ∈ listens, x.isSome) →
      (runQueriesEffect reg listens n₀).2.1.map Prod.fst
          = List.range' n₀ listens.length
      ∧ (runQueriesEffect reg listens n₀).2.1.map Prod.snd
          = listens.filterMap id
      ∧ (runQueriesEffect reg listens n₀).2.2
          = some (List.range' n₀ listens.length) := by
  intro listens
  induction listens with
  | nil => intro reg n₀ _; exact ⟨rfl, rfl, rfl⟩
  | cons x rest ih =>
    intro reg n₀ hall
    match x, hall x (by simp) with
    | some k, _ =>
      obtain ⟨h₁, h₂, h₃⟩ :=
        ih (reg.start n₀ k) (n₀ + 1) (fun y hy => hall y (by simp [hy]))
      refine ⟨?_, ?_, ?_⟩
      · simp [runQueriesEffect, h₁, List.range']
      · simp [runQueriesEffect, h₂]
      · simp [runQueriesEffect, h₃, List.range']

/-- Helper: the effect loop when it reaches a query with an undefined key —
it starts only the earlier queries and registers no cleanup. -/
theorem runQueriesEffect_early_return :
    ∀ (pre : List (Option QKey)) (rest : List (Option QKey)) (reg : HReg)
      (n₀ : Nat), (∀ x ∈ pre, x.isSome) →
      (runQueriesEffect reg (pre ++ none :: rest) n₀).2.1.map Prod.fst
          = List.range' n₀ pre.length
      ∧ (runQueriesEffect reg (pre ++ none :: rest) n₀).2.1.map Prod.snd
          = pre.filterMap id
      ∧ (runQueriesEffect reg (pre ++ none :: rest) n₀).2.2 = none := by
  intro pre
  induction pre with
  | nil => intro rest reg n₀ _; exact ⟨rfl, rfl, rfl⟩
  | cons x t ih =>
    intro rest reg n₀ hall
    match x, hall x (by simp) with
    | some k, _ =>
      obtain ⟨h₁, h₂, h₃⟩ :=
        ih rest (reg.start n₀ k) (n₀ + 1) (fun y hy => hall y (by simp [hy]))
      refine ⟨?_, ?_, ?_⟩
      · simp [runQueriesEffect, h₁, List.range']
      · simp [runQueriesEffect, h₂]
      · simp [runQueriesEffect, h₃]

/-- C8: in the `useQueries` mount effect, if every requested query has a
defined derived key then `start` is called exactly once per query with
fresh pairwise-distinct handles and the registered cleanup ends exactly
those handles; if some query's key is undefined, the effect returns at the
first such query, starting only the earlier ones and registering no
cleanup, so their handles are never ended. -/
theorem useQueries_effect_lifecycle (reg : HReg) (n₀ : Nat)
    (listens pre rest : List (Option QKey))
    (hall : ∀ x ∈ listens, x.isSome) (hpre : ∀ x ∈ pre, x.isSome) :
    ((runQueriesEffect reg listens n₀).2.1.map Prod.fst
        = List.range' n₀ listens.length
      ∧ (runQueriesEffect reg listens n₀).2.1.map Prod.snd
        = listens.filterMap id
      ∧ ((runQueriesEffect reg listens n₀).2.1.map Prod.fst).Nodup
      ∧ (runQueriesEffect reg listens n₀).2.2
        = some ((runQueriesEffect reg listens n₀).2.1.map Prod.fst))
    ∧ ((runQueriesEffect reg (pre ++ none :: rest) n₀).2.1.map Prod.fst
        = List.range' n₀ pre.length
      ∧ (runQueriesEffect reg (pre ++ none :: rest) n₀).2.1.map Prod.snd
        = pre.filterMap id
      ∧ (runQueriesEffect reg (pre ++ none :: rest) n₀).2.2 = none) := by
  obtain ⟨h₁, h₂, h₃⟩ := runQueriesEffect_all_defined listens reg n₀ hall
  refine ⟨⟨h₁, h₂, ?_, by rw [h₃, h₁]⟩,
    runQueriesEffect_early_return pre rest reg n₀ hpre⟩
  rw [h₁]
  exact List.nodup_range' _ _

/-- Witness for `useQueries_effect_lifecycle` at concrete inputs. -/
theorem useQueries_effect_lifecycle_witness :
    (∀ x ∈ [some ([] : QKey), some [Tok.tnull]], x.isSome)
    ∧ (∀ x ∈ [some ([Tok.arrO] : QKey)], x.isSome)
    ∧ (((runQueriesEffect (Reg.init QKey RVal) [some [], some [.tnull]] 3).2.1.map Prod.fst
          = List.range' 3 2
        ∧ (runQueriesEffect (Reg.init QKey RVal) [some [], some [.tnull]] 3).2.1.map Prod.snd
          = [some ([] : QKey), some [.tnull]].filterMap id
        ∧ ((runQueriesEffect (Reg.init QKey RVal) [some [], some [.tnull]] 3).2.1.map
            Prod.fst).Nodup
        ∧ (runQueriesEffect (Reg.init QKey RVal) [some [], some [.tnull]] 3).2.2
          = some ((runQueriesEffect (Reg.init QKey RVal) [some [], some [.tnull]] 3).2.1.map
              Prod.fst))
      ∧ ((runQueriesEffect (Reg.init QKey RVal) ([some [.arrO]] ++ none :: [some []]) 3).2.1.map
            Prod.fst = List.range' 3 1
        ∧ (runQueriesEffect (Reg.init QKey RVal)
            ([some [.arrO]] ++ none :: [some []]) 3).2.1.map Prod.snd
          = [some ([Tok.arrO] : QKey)].filterMap id
        ∧ (runQueriesEffect (Reg.init QKey RVal)
            ([some [.arrO]] ++ none :: [some []]) 3).2.2 = none)) :=
  ⟨by decide, by decide,
   useQueries_effect_lifecycle (Reg.init QKey RVal) 3 [some [], some [.tnull]]
     [some [.arrO]] [some []] (by decide) (by decide)⟩

/-- C6: transport failures are values in the same channel — pushing an
error result caches it and fans it out to every attached listener exactly
like a success — and `useQuery`'s presentation boundary throws exactly on
`Error` results and returns any other result unchanged. -/
theorem error_results_and_rethrow (r : HReg) (k : QKey) (entry : Entry RVal)
    (e : String) (hentry : lookupA r.entries k = some entry) :
    ((r.push k (.inr e)).probe k = some (.inr e)
      ∧ (r.push k (.inr e)).delivered
        = r.delivered ++ entry.listeners.map (fun h => (h, Sum.inr e)))
    ∧ (∀ res : Option RVal,
        (∃ err, res = some (.inr err)) ↔ ∃ err, presentResult res = .error err)
    ∧ (∀ v : Value, presentResult (some (.inl v)) = .ok (some v))
    ∧ presentResult none = .ok none := by
  have hupd : lookupA (r.push k (.inr e)).entries k
      = some ⟨entry.listeners, some (.inr e)⟩ := by
    simp only [Reg.push, hentry]
    exact lookupA_updateA_self r.entries k _ (by simp [hentry])
  refine ⟨⟨?_, ?_⟩, ?_, fun v => rfl, rfl⟩
  · simp [Reg.probe, hupd]
  · simp [Reg.push, hentry]
  · intro res
    match res with
    | none => simp [presentResult]
    | some (.inl v) => simp [presentResult]
    | some (.inr err) => simp [presentResult]

/-- Witness for `error_results_and_rethrow` at a concrete input. -/
theorem error_results_and_rethrow_witness :
    lookupA ((Reg.init QKey RVal).start 1 []).entries [] = some ⟨[1], none⟩
    ∧ (((((Reg.init QKey RVal).start 1 []).push [] (.inr "boom")).probe []
            = some (.inr "boom")
        ∧ (((Reg.init QKey RVal).start 1 []).push [] (.inr "boom")).delivered
          = ((Reg.init QKey RVal).start 1 []).delivered
              ++ ((⟨[1], none⟩ : Entry RVal)).listeners.map (fun h => (h, Sum.inr "boom")))
      ∧ (∀ res : Option RVal,
          (∃ err, res = some (.inr err)) ↔ ∃ err, presentResult res = .error err)
      ∧ (∀ v : Value, presentResult (some (.inl v)) = .ok (some v))
      ∧ presentResult none = .ok none) :=
  ⟨rfl, error_results_and_rethrow ((Reg.init QKey RVal).start 1 []) [] ⟨[1], none⟩
    "boom" rfl⟩

end HooksTheorems

/-- Helper: a file just written is present. -/
theorem existsF_write (fs : FileSys) (p c : String) :
    (fs.write p c).existsF p = true := by
  simp [FileSys.write, FileSys.existsF, lookupA]

/-- Helper: removing at an absent key leaves the key absent. -/
theorem lookupA_removeA_of_none {α β : Type} [DecidableEq α]
    (l : List (α × β)) (x : α) (h : lookupA l x = none) :
    lookupA (removeA l x) x = none := by
  induction l with
  | nil => simp [removeA, lookupA]
  | cons hd t ih =>
    obtain ⟨a, b⟩ := hd
    by_cases hax : a = x
    · subst hax
      simp [lookupA] at h
    · simp [removeA, lookupA, hax] at h ⊢
      exact ih h

/-- C10: `getFunctionSpec` exits with status 1 when both the `prod` flag and
a file path are supplied, and when a supplied file path does not exist; when
an existing file path is supplied alone it returns exactly that file's
contents without invoking the external introspection command. -/
theorem getFunctionSpec_filePath_cases (fs : FileSys) (spawn : SpawnResult)
    (temp p c : String) (hp : p ≠ "") :
    (getFunctionSpec true (some p) fs spawn temp).1 = .exited 1
    ∧ (¬ fs.existsF p →
        ∀ prod, (getFunctionSpec prod (some p) fs spawn temp).1 = .exited 1)
    ∧ (fs.read p = some c →
        getFunctionSpec false (some p) fs spawn temp = (.returned c, fs, false)) := by
  refine ⟨?_, ?_, ?_⟩
  · simp [getFunctionSpec, jsTruthyPath, hp]
  · intro hne prod
    by_cases hprod : prod
    · simp [getFunctionSpec, jsTruthyPath, hp, hprod]
    · simp [getFunctionSpec, jsTruthyPath, hp, hprod, hne]
  · intro hread
    have hex : fs.existsF p = true := by
      simp [FileSys.existsF, FileSys.read] at hread ⊢
      simp [hread]
    simp [FileSys.read] at hread
    simp [getFunctionSpec, jsTruthyPath, hp, hex, FileSys.read, hread]

/-- Witness for `getFunctionSpec_filePath_cases` at a concrete input. -/
theorem getFunctionSpec_filePath_cases_witness :
    ("spec.json" : String) ≠ ""
    ∧ ((getFunctionSpec true (some "spec.json") ⟨[("spec.json", "{}")]⟩ ⟨0, ""⟩ "/tmp/t").1
          = .exited 1
      ∧ (¬ (FileSys.mk [("spec.json", "{}")]).existsF "spec.json" →
          ∀ prod, (getFunctionSpec prod (some "spec.json") ⟨[("spec.json", "{}")]⟩ ⟨0, ""⟩ "/tmp/t").1
            = .exited 1)
      ∧ ((FileSys.mk [("spec.json", "{}")]).read "spec.json" = some "{}" →
          getFunctionSpec false (some "spec.json") ⟨[("spec.json", "{}")]⟩ ⟨0, ""⟩ "/tmp/t"
            = (.returned "{}", ⟨[("spec.json", "{}")]⟩, false))) :=
  ⟨by decide,
   getFunctionSpec_filePath_cases ⟨[("spec.json", "{}")]⟩ ⟨0, ""⟩ "/tmp/t"
     "spec.json" "{}" (by decide)⟩

/-- C7 (code behaviour at the failing input): when no file path is given and
the introspection command exits with a nonzero status, the `catch` block
calls `process.exit(1)` and the process terminates before the `finally`
block runs, so the temporary file is *not* deleted; on the success path the
temporary file is deleted. -/
theorem getFunctionSpec_temp_file (fs : FileSys) (spawn : SpawnResult)
    (prod : Bool) (temp : String) (hfail : spawn.status ≠ 0) :
    (getFunctionSpec prod none fs spawn temp).1 = .exited 1
    ∧ ((getFunctionSpec prod none fs spawn temp).2.1).existsF temp = true
    ∧ (∀ spawn' : SpawnResult, spawn'.status = 0 → ¬ fs.existsF temp →
        ((getFunctionSpec prod none fs spawn' temp).2.1).existsF temp = false) := by
  refine ⟨?_, ?_, ?_⟩
  · simp [getFunctionSpec, jsTruthyPath, hfail]
  · simp [getFunctionSpec, jsTruthyPath, hfail, existsF_write]
  · intro spawn' hok hfresh
    simp [getFunctionSpec, jsTruthyPath, hok, FileSys.remove, FileSys.write,
      FileSys.existsF, removeA] at hfresh ⊢
    exact lookupA_removeA_of_none _ _ hfresh

/-- Witness for `getFunctionSpec_temp_file` at a concrete input. -/
theorem getFunctionSpec_temp_file_witness :
    (SpawnResult.mk 1 "").status ≠ 0
    ∧ ((getFunctionSpec false none ⟨[]⟩ ⟨1, ""⟩ "/tmp/function-spec-1.json").1 = .exited 1
      ∧ ((getFunctionSpec false none ⟨[]⟩ ⟨1, ""⟩ "/tmp/function-spec-1.json").2.1).existsF
          "/tmp/function-spec-1.json" = true
      ∧ (∀ spawn' : SpawnResult, spawn'.status = 0 →
          ¬ (FileSys.mk []).existsF "/tmp/function-spec-1.json" →
          ((getFunctionSpec false none ⟨[]⟩ spawn' "/tmp/function-spec-1.json").2.1).existsF
            "/tmp/function-spec-1.json" = false)) :=
  ⟨by decide,
   getFunctionSpec_temp_file ⟨[]⟩ ⟨1, ""⟩ false "/tmp/function-spec-1.json" (by decide)⟩

end ConvexHelpers
